import Mathlib

/-!
A shallow embedding of the latency-tracker core (storage.go, with the data
model from the types file and `defaultMetricConfig` from server.go).

Modelling conventions:
* `time.Duration` (int64 nanoseconds) and `time.Time` instants are `Int`.
* `time.Now()` becomes an explicit `now : Instant` argument.
* The Go `map[string]*Metric` is an association list wrapped in `Option`:
  `none` models the nil (uninitialized) map.  Reading a nil map yields
  not-found, as in Go; assigning into a nil map panics, which is modelled
  by an `Option` result (`none` = panic) on every operation that performs
  a map assignment.
* Mutexes are dropped: each operation is a pure function on the state.
* The `float64` arithmetic of `computePercentile` is modelled bit-exactly:
  every step (int-to-float conversion, division by 100.0, multiplication,
  `math.Ceil`, conversion to int) is IEEE binary64 round-to-nearest with
  ties to even, implemented on dyadic pairs (m, e) of value m * 2 ^ e with
  integer arithmetic only.  The exponent is unbounded, which agrees with
  binary64 wherever no overflow or underflow occurs; for int64 percentiles
  and int64 lengths every intermediate magnitude lies far inside the normal
  range, so no such divergence is reachable.
-/

namespace LatencyTracker

/-- time.Duration: nanoseconds, int64 in Go. -/
abbrev Duration := Int

/-- time.Time: a wall-clock instant, as nanoseconds since the epoch. -/
abbrev Instant := Int

/-- One observed latency plus its ingestion timestamp. -/
structure LatencySample where
  LatencyVal : Duration
  RecordedAt : Instant
deriving DecidableEq, Repr

/-- Static configuration of a metric. -/
structure MetricConfig where
  ID : String
  Window : Duration
  Percentiles : List Int
  MaxSamples : Int
  CreatedAt : Instant
deriving DecidableEq, Repr

/-- A metric: its config and the bounded sample sequence (mutex dropped). -/
structure Metric where
  Config : MetricConfig
  Samples : List LatencySample
deriving DecidableEq, Repr

/-- Read-only projection returned by CalculateLatency; `Option` models the
Go pointer fields that distinguish absence from a zero duration. -/
structure MetricSnapshot where
  MetricID : String
  Window : Duration
  Count : Nat
  P50 : Option Duration
  P95 : Option Duration
  P99 : Option Duration
deriving DecidableEq, Repr

/-- `(m *Metric) RecordLatency`: reject non-positive latencies, else append
a sample stamped `now` and evict from the head once the length exceeds
`MaxSamples`.  Returns the updated metric and the boolean of the Go function. -/
def RecordLatency (m : Metric) (latency : Duration) (now : Instant) : Metric × Bool :=
  if latency ≤ 0 then
    (m, false)
  else
    let sample : LatencySample := { LatencyVal := latency, RecordedAt := now }
    let samples := m.Samples ++ [sample]
    let samples2 :=
      if (samples.length : Int) > m.Config.MaxSamples then samples.drop 1 else samples
    ({ m with Samples := samples2 }, true)

/-- Exact ceiling of `a / b` for `b > 0`, via the floor (Euclidean) division. -/
def ceilDiv (a b : Int) : Int := -((-a) / b)

/-- Floor of log base 2 by repeated halving; the first argument is fuel, so
the recursion is structural and kernel-reducible. -/
def log2Fuel : Nat → Nat → Nat
  | 0, _ => 0
  | fuel + 1, n => if n ≤ 1 then 0 else log2Fuel fuel (n / 2) + 1

/-- Floor of log base 2 of a natural number (0 at 0 and 1). -/
def log2N (n : Nat) : Nat := log2Fuel n n

/-- Round the quotient A / B to the nearest natural number, ties to even:
the IEEE round-to-nearest-even rule on exact integer data. -/
def rneDiv (A B : Nat) : Nat :=
  if 2 * (A % B) < B then A / B
  else if B < 2 * (A % B) then A / B + 1
  else if (A / B) % 2 = 0 then A / B else A / B + 1

/-- The binary exponent E of the positive rational A / B: the unique E with
2 ^ E ≤ A / B < 2 ^ (E + 1) (junk for A = 0 or B = 0). -/
def ratExp2N (A B : Nat) : Int :=
  if B ≤ A then (log2N (A / B) : Int)
  else if B ≤ A * 2 ^ log2N (B / A) then -(log2N (B / A) : Int)
  else -(log2N (B / A) : Int) - 1

/-- Round the rational a / b (b > 0) to IEEE binary64: keep 53 significant
bits, round to nearest, ties to even, sign-symmetric.  The result is a
dyadic pair (m, e) of value m * 2 ^ e.  The exponent is unbounded: this
agrees with binary64 wherever no overflow or underflow occurs, which holds
for every value this program can feed it (see the header note). -/
def roundFloat (a b : Int) : Int × Int :=
  if a = 0 then (0, 0)
  else
    let A := a.natAbs
    let B := b.natAbs
    let E := ratExp2N A B
    let m : Nat :=
      if E ≤ 52 then rneDiv (A * 2 ^ (52 - E).toNat) B
      else rneDiv A (B * 2 ^ (E - 52).toNat)
    (a.sign * m, E - 52)

/-- IEEE binary64 division of the value x by the exact positive integer d
(the source divides by the literal 100.0, which is exactly representable):
the correctly rounded exact quotient. -/
def floatDiv (x : Int × Int) (d : Int) : Int × Int :=
  if 0 ≤ x.2 then roundFloat (x.1 * 2 ^ x.2.toNat) d
  else roundFloat x.1 (d * 2 ^ (-x.2).toNat)

/-- IEEE binary64 multiplication: the correctly rounded exact product. -/
def floatMul (x y : Int × Int) : Int × Int :=
  if 0 ≤ x.2 + y.2 then roundFloat (x.1 * y.1 * 2 ^ (x.2 + y.2).toNat) 1
  else roundFloat (x.1 * y.1) (2 ^ (-(x.2 + y.2)).toNat)

/-- math.Ceil of a binary64 value, converted to int.  The ceiling of a
finite float is always exactly representable, so math.Ceil is exact; the
int conversion is exact whenever the value fits in int64, which holds
throughout the contract range of the percentile computation. -/
def floatCeil (x : Int × Int) : Int :=
  if 0 ≤ x.2 then x.1 * 2 ^ x.2.toNat
  else ceilDiv x.1 (2 ^ (-x.2).toNat)

/-- int(math.Ceil((float64(percentile) / 100.0) * float64(N))) - 1: the
index computation of computePercentile, each floating-point step modelled
by correctly rounded binary64 arithmetic. -/
def floatRankIdx (N p : Int) : Int :=
  floatCeil (floatMul (floatDiv (roundFloat p 1) 100) (roundFloat N 1)) - 1

/-- `computePercentile`: nearest-rank index ceil(p/100 * N) - 1, evaluated
in float64 exactly as the source does, then clamped to `[0, N-1]`; `none`
on the empty list (the Go nil pointer).  The list lookup is `get?` so that
an out-of-range index would surface as `none` rather than a Go panic. -/
def computePercentile (latencies : List Duration) (percentile : Int) : Option Duration :=
  let N : Int := latencies.length
  if N = 0 then
    none
  else
    let idx0 := floatRankIdx N percentile
    let idx1 := if idx0 < 0 then 0 else idx0
    let idx2 := if idx1 ≥ N then N - 1 else idx1
    latencies.get? idx2.toNat

/-- `(m *Metric) CalculateLatency`: filter the samples to those recorded
strictly after `now - Window`, and when any remain, sort the latency values
ascending and fill P50/P95/P99 with `computePercentile`. -/
def CalculateLatency (m : Metric) (now : Instant) : MetricSnapshot :=
  let cutoff := now - m.Config.Window
  let active := m.Samples.filter (fun record => cutoff < record.RecordedAt)
  let base : MetricSnapshot :=
    { MetricID := m.Config.ID
      Window := m.Config.Window
      Count := active.length
      P50 := none
      P95 := none
      P99 := none }
  if 0 < active.length then
    let latencies := List.insertionSort (· ≤ ·) (active.map (fun l => l.LatencyVal))
    { base with
        P50 := computePercentile latencies 50
        P95 := computePercentile latencies 95
        P99 := computePercentile latencies 99 }
  else
    base

/-- Go `map[string]*Metric`: `none` is the nil map of a zero-value store. -/
abbrev GoMetricMap := Option (List (String × Metric))

/-- The metric registry (RWMutex dropped). -/
structure MetricStore where
  Metrics : GoMetricMap
deriving DecidableEq, Repr

/-- Association-list lookup, first binding wins (at most one exists). -/
def lookupAssoc : List (String × Metric) → String → Option Metric
  | [], _ => none
  | (k0, v0) :: rest, k => if k0 = k then some v0 else lookupAssoc rest k

/-- Association-list insert: replace the existing binding or append. -/
def insertAssoc : List (String × Metric) → String → Metric → List (String × Metric)
  | [], k, v => [(k, v)]
  | (k0, v0) :: rest, k, v =>
      if k0 = k then (k, v) :: rest else (k0, v0) :: insertAssoc rest k v

/-- Go map read `mp[k]`: reading a nil map yields not-found. -/
def mapGet (mp : GoMetricMap) (k : String) : Option Metric :=
  match mp with
  | none => none
  | some l => lookupAssoc l k

/-- Go map assignment `mp[k] = v`: panics (`none`) on a nil map. -/
def mapSet (mp : GoMetricMap) (k : String) (v : Metric) :
    Option (List (String × Metric)) :=
  match mp with
  | none => none
  | some l => some (insertAssoc l k v)

/-- `createNewMetricStore`: a store whose backing map is initialized. -/
def createNewMetricStore : MetricStore := { Metrics := some [] }

/-- The validation errors of `CreateMetric` (the Go `error` values). -/
inductive CreateError where
  | invalidWindow
  | invalidMaxSamples
deriving DecidableEq, Repr

/-- `(ms *MetricStore) CreateMetric`: reject a non-positive window or
max-sample count before touching the store; otherwise assign a fresh empty
metric into the map under the ID of the config.  The outer `Option` is `none`
exactly when the map assignment would panic (nil map). -/
def CreateMetric (ms : MetricStore) (config : MetricConfig) :
    Option (MetricStore × Except CreateError Metric) :=
  if config.Window ≤ 0 then
    some (ms, Except.error CreateError.invalidWindow)
  else if config.MaxSamples ≤ 0 then
    some (ms, Except.error CreateError.invalidMaxSamples)
  else
    let metric : Metric := { Config := config, Samples := [] }
    match mapSet ms.Metrics config.ID metric with
    | none => none
    | some l => some ({ Metrics := some l }, Except.ok metric)

/-- `(ms *MetricStore) getMetric`: read-locked lookup. -/
def getMetric (ms : MetricStore) (id : String) : Option Metric :=
  mapGet ms.Metrics id

/-- `defaultMetricConfig` (server.go): window one minute, 100 samples. -/
def defaultMetricConfig (id : String) (now : Instant) : MetricConfig :=
  { ID := id
    Window := 60000000000
    Percentiles := []
    MaxSamples := 100
    CreatedAt := now }

/-- `(ms *MetricStore) getOrCreateMetric`: return the existing metric, or
construct one with the default config.  On the not-found branch the source
executes `ms.Metrics = make(map[string]*Metric)` before the assignment, so
the insertion goes into a brand-new backing map, discarding the old one;
the embedding mirrors that by assigning into `some []`. -/
def getOrCreateMetric (ms : MetricStore) (id : String) (now : Instant) :
    Option (MetricStore × Metric) :=
  match mapGet ms.Metrics id with
  | some metric => some (ms, metric)
  | none =>
    let metric : Metric := { Config := defaultMetricConfig id now, Samples := [] }
    match mapSet (some []) id metric with
    | none => none
    | some l => some ({ Metrics := some l }, metric)

/-- Fold `RecordLatency` over a list of (latency, timestamp) pairs. -/
def recordMany (m : Metric) (entries : List (Duration × Instant)) : Metric :=
  entries.foldl (fun acc e => (RecordLatency acc e.1 e.2).1) m

/-- The sample a successful record of `e` stores. -/
def mkSample (e : Duration × Instant) : LatencySample :=
  { LatencyVal := e.1, RecordedAt := e.2 }

/-- The exact nearest-rank index `ceil(p/100 * N) - 1` that the spec
describes, in exact integer arithmetic.  The source evaluates this formula
in float64 (`floatRankIdx`); the two can differ, which the C2 theorems
record. -/
def nearestRankIdx (N p : Int) : Int := ceilDiv (p * N) 100 - 1

/-- The two clamping steps of `computePercentile`, as one function. -/
def clampIdx (N i : Int) : Int :=
  if (if i < 0 then 0 else i) ≥ N then N - 1 else (if i < 0 then 0 else i)

/-- The rational value of a dyadic pair (m, e). -/
def fval (x : Int × Int) : ℚ := (x.1 : ℚ) * 2 ^ x.2

/-- Round to the nearest integer, ties to even, on ℚ: the proof-level
counterpart of `rneDiv`. -/
def rne (s : ℚ) : Int :=
  if s - ⌊s⌋ < 1 / 2 then ⌊s⌋
  else if 1 / 2 < s - ⌊s⌋ then ⌊s⌋ + 1
  else if ⌊s⌋ % 2 = 0 then ⌊s⌋ else ⌊s⌋ + 1

/-- The binary exponent of |q| (junk at 0). -/
def qexp (q : ℚ) : Int := ratExp2N q.num.natAbs q.den

/-- Proof-level binary64 rounding on rational values (the same convention
as `roundFloat`, stated on the value rather than on a fraction). -/
def round64 (q : ℚ) : ℚ :=
  if q = 0 then 0
  else (if q < 0 then -1 else 1) *
    (rne (|q| * 2 ^ ((52 : Int) - qexp q)) : ℚ) * 2 ^ (qexp q - (52 : Int))

theorem computePercentile_unfold (l : List Duration) (p : Int) :
    computePercentile l p =
      if (l.length : Int) = 0 then none
      else l.get? (clampIdx (l.length : Int) (floatRankIdx (l.length : Int) p)).toNat :=
  rfl

theorem recordLatency_config (m : Metric) (l : Duration) (t : Instant) :
    ((RecordLatency m l t).1).Config = m.Config := by
  unfold RecordLatency
  split_ifs <;> rfl

theorem clampIdx_mem (N i : Int) (hN : 0 < N) :
    0 ≤ clampIdx N i ∧ clampIdx N i < N := by
  unfold clampIdx
  split_ifs <;> omega

theorem clampIdx_eq_of_bounds (N i : Int) (h0 : 0 ≤ i) (h1 : i < N) :
    clampIdx N i = i := by
  unfold clampIdx
  split_ifs <;> omega

theorem clampIdx_mono (N i j : Int) (h : i ≤ j) : clampIdx N i ≤ clampIdx N j := by
  unfold clampIdx
  split_ifs <;> omega

theorem ceilDiv_eq (a b : Int) : b * ceilDiv a b = a + (-a) % b := by
  have h2 : b * ceilDiv a b = -(b * ((-a) / b)) := by
    unfold ceilDiv
    ring
  rw [h2]
  have h1 := Int.ediv_add_emod (-a) b
  linarith

theorem le_mul_ceilDiv (a b : Int) (hb : 0 < b) : a ≤ b * ceilDiv a b := by
  rw [ceilDiv_eq]
  have := Int.emod_nonneg (-a) (ne_of_gt hb)
  linarith

theorem mul_ceilDiv_lt (a b : Int) (hb : 0 < b) : b * ceilDiv a b < a + b := by
  rw [ceilDiv_eq]
  have := Int.emod_lt_of_pos (-a) hb
  linarith

theorem ceilDiv_eq_ceil (a b : Int) (hb : 0 < b) : ceilDiv a b = ⌈(a : ℚ) / b⌉ := by
  have hbq : (0 : ℚ) < (b : ℚ) := by exact_mod_cast hb
  symm
  rw [Int.ceil_eq_iff]
  constructor
  · rw [lt_div_iff hbq]
    have h2 : ((b : ℚ)) * (ceilDiv a b) < a + b := by
      exact_mod_cast mul_ceilDiv_lt a b hb
    nlinarith
  · rw [div_le_iff hbq]
    have h2 : ((a : ℚ)) ≤ b * (ceilDiv a b) := by
      exact_mod_cast le_mul_ceilDiv a b hb
    nlinarith

theorem log2Fuel_correct : ∀ fuel n, 1 ≤ n → n ≤ fuel →
    2 ^ log2Fuel fuel n ≤ n ∧ n < 2 ^ (log2Fuel fuel n + 1) := by
  intro fuel
  induction fuel with
  | zero => intro n h1 h2; omega
  | succ fuel ih =>
    intro n h1 h2
    by_cases hsmall : n ≤ 1
    · have hn : n = 1 := by omega
      simp [log2Fuel, hn]
    · have hfl : 1 ≤ fuel := by omega
      have hrec : 1 ≤ n / 2 := by omega
      have hrec2 : n / 2 ≤ fuel := by omega
      obtain ⟨ihl, ihr⟩ := ih (n / 2) hrec hrec2
      have hstep : log2Fuel (fuel + 1) n = log2Fuel fuel (n / 2) + 1 := by
        simp [log2Fuel, hsmall]
      rw [hstep]
      constructor
      · rw [pow_succ]
        omega
      · rw [pow_succ, pow_succ] at *
        omega

theorem log2N_correct (n : Nat) (h : 1 ≤ n) :
    2 ^ log2N n ≤ n ∧ n < 2 ^ (log2N n + 1) :=
  log2Fuel_correct n n h le_rfl

theorem rne_floor_le (s : ℚ) : ⌊s⌋ ≤ rne s := by
  unfold rne
  split_ifs <;> omega

theorem rne_ge (s : ℚ) : s - 1 / 2 ≤ (rne s : ℚ) := by
  have h1 := Int.floor_le s
  have h2 := Int.lt_floor_add_one s
  unfold rne
  split_ifs <;> push_cast <;> linarith

theorem rne_le (s : ℚ) : (rne s : ℚ) ≤ s + 1 / 2 := by
  have h1 := Int.floor_le s
  have h2 := Int.lt_floor_add_one s
  unfold rne
  split_ifs <;> push_cast <;> linarith

theorem rne_intCast (n : Int) : rne ((n : ℚ)) = n := by
  unfold rne
  rw [Int.floor_intCast]
  have h0 : ((n : ℚ)) - n = 0 := by ring
  rw [h0]
  norm_num

theorem rne_mono {s t : ℚ} (h : s ≤ t) : rne s ≤ rne t := by
  have hm : ⌊s⌋ ≤ ⌊t⌋ := Int.floor_mono h
  rcases lt_or_eq_of_le hm with hlt | heq
  · have h1 := rne_floor_le t
    have h2 : rne s ≤ ⌊s⌋ + 1 := by
      unfold rne
      split_ifs <;> omega
    omega
  · unfold rne
    rw [← heq]
    split_ifs <;> first | omega | (exfalso; linarith) | linarith

theorem rneDiv_eq (A B : Nat) (hB : 0 < B) : (rneDiv A B : Int) = rne ((A : ℚ) / B) := by
  have hBq : (0 : ℚ) < (B : ℚ) := by exact_mod_cast hB
  have hmod : B * (A / B) + A % B = A := Nat.div_add_mod A B
  have hm2 : ((B : ℕ) : ℚ) * ((A / B : ℕ) : ℚ) + ((A % B : ℕ) : ℚ) = ((A : ℕ) : ℚ) := by
    exact_mod_cast hmod
  have hfloor : ⌊(A : ℚ) / B⌋ = ((A / B : Nat) : Int) := by
    rw [Int.floor_eq_iff]
    constructor
    · rw [le_div_iff hBq]
      simp only [Int.cast_natCast]
      have := Nat.div_mul_le_self A B
      exact_mod_cast this
    · rw [div_lt_iff hBq]
      simp only [Int.cast_natCast]
      have hmlt : ((A % B : ℕ) : ℚ) < ((B : ℕ) : ℚ) := by
        exact_mod_cast Nat.mod_lt A hB
      nlinarith
  have hfrac : (A : ℚ) / B - (((A / B : Nat) : Int) : ℚ) = ((A % B : Nat) : ℚ) / B := by
    rw [eq_div_iff (ne_of_gt hBq), sub_mul, div_mul_cancel₀ _ (ne_of_gt hBq)]
    simp only [Int.cast_natCast]
    nlinarith [hm2]
  have hc1 : ((A % B : Nat) : ℚ) / B < 1 / 2 ↔ 2 * (A % B) < B := by
    rw [div_lt_div_iff hBq (by norm_num), one_mul]
    constructor
    · intro hh
      have h3 : ((2 * (A % B) : ℕ) : ℚ) < ((B : ℕ) : ℚ) := by
        push_cast
        linarith
      exact_mod_cast h3
    · intro hh
      have h3 : ((2 * (A % B) : ℕ) : ℚ) < ((B : ℕ) : ℚ) := by exact_mod_cast hh
      push_cast at h3
      linarith
  have hc2 : (1 : ℚ) / 2 < ((A % B : Nat) : ℚ) / B ↔ B < 2 * (A % B) := by
    rw [div_lt_div_iff (by norm_num) hBq, one_mul]
    constructor
    · intro hh
      have h3 : ((B : ℕ) : ℚ) < ((2 * (A % B) : ℕ) : ℚ) := by
        push_cast
        linarith
      exact_mod_cast h3
    · intro hh
      have h3 : ((B : ℕ) : ℚ) < ((2 * (A % B) : ℕ) : ℚ) := by exact_mod_cast hh
      push_cast at h3
      linarith
  have hc3 : ((A / B : Nat) : Int) % 2 = 0 ↔ (A / B) % 2 = 0 := by omega
  unfold rne rneDiv
  rw [hfloor, hfrac]
  simp only [hc1, hc2, hc3]
  split_ifs <;> push_cast <;> ring

theorem exp2_lt_imp {E F : Int} (h : (2 : ℚ) ^ E < 2 ^ F) : E < F := by
  by_contra hc
  push_neg at hc
  exact absurd (zpow_le_zpow_right₀ one_le_two hc) (not_le.mpr h)

theorem exp2_unique {x : ℚ} {E F : Int}
    (h1 : 2 ^ E ≤ x) (h2 : x < 2 ^ (E + 1))
    (h3 : 2 ^ F ≤ x) (h4 : x < 2 ^ (F + 1)) : E = F := by
  have hEF : E < F + 1 := exp2_lt_imp (lt_of_le_of_lt h1 h4)
  have hFE : F < E + 1 := exp2_lt_imp (lt_of_le_of_lt h3 h2)
  omega

theorem ratExp2N_correct (A B : Nat) (hA : 0 < A) (hB : 0 < B) :
    (2 : ℚ) ^ ratExp2N A B ≤ (A : ℚ) / B ∧ (A : ℚ) / B < 2 ^ (ratExp2N A B + 1) := by
  have hAq : (0 : ℚ) < A := by exact_mod_cast hA
  have hBq : (0 : ℚ) < B := by exact_mod_cast hB
  unfold ratExp2N
  by_cases hle : B ≤ A
  · rw [if_pos hle]
    have hq1 : 1 ≤ A / B := (Nat.one_le_div_iff hB).mpr hle
    obtain ⟨hl, hr⟩ := log2N_correct (A / B) hq1
    set L := log2N (A / B) with hL
    have hfl : ((A / B : Nat) : ℚ) ≤ (A : ℚ) / B := by
      rw [le_div_iff hBq]
      have := Nat.div_mul_le_self A B
      exact_mod_cast this
    have hfu : (A : ℚ) / B < ((A / B : Nat) : ℚ) + 1 := by
      rw [div_lt_iff hBq]
      have hlt : A < B * (A / B) + B := by
        have := Nat.mod_lt A hB
        have := Nat.div_add_mod A B
        omega
      have hltq : ((A : ℕ) : ℚ) < ((B * (A / B) + B : ℕ) : ℚ) := by exact_mod_cast hlt
      push_cast at hltq
      nlinarith [hltq]
    constructor
    · calc (2 : ℚ) ^ (L : Int) = ((2 ^ L : Nat) : ℚ) := by push_cast [zpow_natCast]; ring
        _ ≤ ((A / B : Nat) : ℚ) := by exact_mod_cast hl
        _ ≤ (A : ℚ) / B := hfl
    · calc (A : ℚ) / B < ((A / B : Nat) : ℚ) + 1 := hfu
        _ ≤ ((2 ^ (L + 1) : Nat) : ℚ) := by
            have : (A / B) + 1 ≤ 2 ^ (L + 1) := hr
            exact_mod_cast this
        _ = (2 : ℚ) ^ ((L : Int) + 1) := by
            push_cast [zpow_natCast]
            norm_cast
  · rw [if_neg hle]
    push_neg at hle
    have hq1 : 1 ≤ B / A := (Nat.one_le_div_iff hA).mpr (le_of_lt hle)
    obtain ⟨hl, hr⟩ := log2N_correct (B / A) hq1
    set L := log2N (B / A) with hL
    have hBA1 : ((B / A : Nat) : ℚ) ≤ (B : ℚ) / A := by
      rw [le_div_iff hAq]
      have := Nat.div_mul_le_self B A
      exact_mod_cast this
    have hBA2 : (B : ℚ) / A < ((B / A : Nat) : ℚ) + 1 := by
      rw [div_lt_iff hAq]
      have hlt : B < A * (B / A) + A := by
        have := Nat.mod_lt B hA
        have := Nat.div_add_mod B A
        omega
      have hltq : ((B : ℕ) : ℚ) < ((A * (B / A) + A : ℕ) : ℚ) := by exact_mod_cast hlt
      push_cast at hltq
      nlinarith [hltq]
    have hpowL : ((2 ^ L : Nat) : ℚ) = (2 : ℚ) ^ (L : Int) := by
      push_cast [zpow_natCast]
      ring
    have hzLpos : (0 : ℚ) < 2 ^ (L : Int) := zpow_pos (by norm_num) _
    by_cases htest : B ≤ A * 2 ^ L
    · rw [if_pos htest]
      constructor
      · rw [zpow_neg, inv_le_iff_one_le_mul₀ hzLpos, ← hpowL]
        rw [div_mul_eq_mul_div, le_div_iff hBq]
        have : (B : ℚ) ≤ (A : ℚ) * (2 ^ L : Nat) := by exact_mod_cast htest
        nlinarith
      · have hup : (A : ℚ) / B ≤ (2 : ℚ) ^ (-(L : Int)) := by
          rw [zpow_neg, div_le_iff hBq, ← hpowL]
          rw [inv_mul_eq_div, le_div_iff (by positivity)]
          have h2L : ((2 ^ L : Nat) : ℚ) ≤ ((B / A : Nat) : ℚ) := by exact_mod_cast hl
          have hABdiv : ((B / A : Nat) : ℚ) * (A : ℚ) ≤ (B : ℚ) :=
            (le_div_iff hAq).mp hBA1
          nlinarith [hAq.le]
        have hstep : (2 : ℚ) ^ (-(L : Int)) < 2 ^ (-(L : Int) + 1) :=
          zpow_lt_zpow_right₀ (by norm_num) (by omega)
        exact lt_of_le_of_lt hup hstep
    · rw [if_neg htest]
      push_neg at htest
      constructor
      · have hlow : (2 : ℚ) ^ (-(L : Int) - 1) ≤ (A : ℚ) / B := by
          have hBlt : (B : ℚ) < (A : ℚ) * (2 ^ (L + 1) : Nat) := by
            have hq : (B : ℚ) / A < ((B / A : Nat) : ℚ) + 1 := hBA2
            have h2 : ((B / A : Nat) : ℚ) + 1 ≤ ((2 ^ (L + 1) : Nat) : ℚ) := by
              exact_mod_cast hr
            rw [div_lt_iff hAq] at hq
            nlinarith
          have hz : (2 : ℚ) ^ (-(L : Int) - 1) = (((2 ^ (L + 1) : Nat) : ℚ))⁻¹ := by
            rw [show -(L : Int) - 1 = -((L : Int) + 1) by ring, zpow_neg]
            congr 1
            push_cast [zpow_natCast]
            norm_cast
          rw [hz, inv_le_iff_one_le_mul₀ (by positivity)]
          rw [div_mul_eq_mul_div, le_div_iff hBq]
          nlinarith
        exact hlow
      · rw [show -(L : Int) - 1 + 1 = -(L : Int) by ring]
        rw [zpow_neg, div_lt_iff hBq, ← hpowL]
        rw [inv_mul_eq_div, lt_div_iff (by positivity)]
        have : (A : ℚ) * (2 ^ L : Nat) < (B : ℚ) := by exact_mod_cast htest
        nlinarith

theorem qexp_spec (q : ℚ) (hq : q ≠ 0) :
    (2 : ℚ) ^ qexp q ≤ |q| ∧ |q| < 2 ^ (qexp q + 1) := by
  have hnum : q.num ≠ 0 := Rat.num_ne_zero.mpr hq
  have hA : 0 < q.num.natAbs := Int.natAbs_pos.mpr hnum
  have hB : 0 < q.den := q.den_pos
  have habs : |q| = (q.num.natAbs : ℚ) / (q.den : ℚ) := by
    rw [Int.cast_natAbs, Int.cast_abs]
    rw [show ((q.den : ℕ) : ℚ) = |((q.den : ℕ) : ℚ)| from
      (abs_of_pos (by exact_mod_cast hB)).symm]
    rw [← abs_div, Rat.num_div_den]
  rw [habs]
  exact ratExp2N_correct _ _ hA hB

theorem round64_zero : round64 0 = 0 := by
  simp [round64]

theorem round64_neg (q : ℚ) : round64 (-q) = -round64 q := by
  by_cases h0 : q = 0
  · simp [h0, round64]
  · have h0n : -q ≠ 0 := neg_ne_zero.mpr h0
    have hqe : qexp (-q) = qexp q := by
      unfold qexp
      rw [Rat.neg_num, Int.natAbs_neg, Rat.neg_den]
    unfold round64
    rw [if_neg h0n, if_neg h0, abs_neg, hqe]
    rcases lt_trichotomy q 0 with hlt | heq | hgt
    · rw [if_neg (by linarith), if_pos hlt]
      ring
    · exact absurd heq h0
    · rw [if_pos (by linarith), if_neg (by linarith)]
      ring

theorem two_zpow_cast (k : ℕ) : ((2 ^ k : Int) : ℚ) = (2 : ℚ) ^ ((k : Int)) := by
  push_cast
  rw [← zpow_natCast (2 : ℚ) k]

theorem two_zpow_52 : (2 : ℚ) ^ ((52 : Int)) = ((2 ^ 52 : Int) : ℚ) := by
  rw [show ((52 : Int)) = ((52 : ℕ) : Int) by norm_num, ← two_zpow_cast]

theorem two_zpow_53 : (2 : ℚ) ^ ((53 : Int)) = ((2 ^ 53 : Int) : ℚ) := by
  rw [show ((53 : Int)) = ((53 : ℕ) : Int) by norm_num, ← two_zpow_cast]

theorem round64_pos (q : ℚ) (h : 0 < q) : 0 < round64 q := by
  have h0 : q ≠ 0 := ne_of_gt h
  obtain ⟨hl, hr⟩ := qexp_spec q h0
  rw [abs_of_pos h] at hl hr
  unfold round64
  rw [if_neg h0, if_neg (not_lt.mpr (le_of_lt h)), abs_of_pos h, one_mul]
  have hs : (1 : ℚ) ≤ q * 2 ^ ((52 : Int) - qexp q) := by
    have hstep : (2 : ℚ) ^ qexp q * 2 ^ ((52 : Int) - qexp q) ≤ q * 2 ^ ((52 : Int) - qexp q) :=
      mul_le_mul_of_nonneg_right hl (le_of_lt (zpow_pos (by norm_num) _))
    calc (1 : ℚ) ≤ 2 ^ ((52 : Int)) := by
          rw [two_zpow_52]
          exact_mod_cast (by norm_num : (1 : Int) ≤ 2 ^ 52)
      _ = 2 ^ qexp q * 2 ^ ((52 : Int) - qexp q) := by
          rw [← zpow_add₀ (two_ne_zero)]
          congr 1
          ring
      _ ≤ q * 2 ^ ((52 : Int) - qexp q) := hstep
  have hrne : 1 ≤ rne (q * 2 ^ ((52 : Int) - qexp q)) := by
    have hfl : (1 : Int) ≤ ⌊q * 2 ^ ((52 : Int) - qexp q)⌋ := by
      rw [Int.le_floor]
      exact_mod_cast hs
    have := rne_floor_le (q * 2 ^ ((52 : Int) - qexp q))
    omega
  have hp : (0 : ℚ) < (rne (q * 2 ^ ((52 : Int) - qexp q)) : ℚ) := by
    exact_mod_cast lt_of_lt_of_le Int.zero_lt_one hrne
  exact mul_pos hp (zpow_pos (by norm_num) _)

theorem round64_intCast (n : Int) (h0 : 0 < n) (h53 : n < 2 ^ 53) :
    round64 ((n : ℚ)) = (n : ℚ) := by
  have hq : (0 : ℚ) < (n : ℚ) := by exact_mod_cast h0
  have hne : ((n : ℚ)) ≠ 0 := ne_of_gt hq
  obtain ⟨hl, hr⟩ := qexp_spec _ hne
  rw [abs_of_pos hq] at hl hr
  set E := qexp ((n : ℚ)) with hE
  have hE52 : E ≤ 52 := by
    by_contra hc
    push_neg at hc
    have hz : (2 : ℚ) ^ ((53 : Int)) ≤ 2 ^ E := zpow_le_zpow_right₀ one_le_two (by omega)
    have hnq : (n : ℚ) < 2 ^ ((53 : Int)) := by
      rw [two_zpow_53]
      exact_mod_cast h53
    linarith
  have hs : (n : ℚ) * 2 ^ ((52 : Int) - E) = ((n * 2 ^ (52 - E).toNat : Int) : ℚ) := by
    push_cast
    rw [← zpow_natCast (2 : ℚ) (52 - E).toNat, Int.toNat_of_nonneg (by omega)]
  unfold round64
  rw [if_neg hne, if_neg (not_lt.mpr (le_of_lt hq)), abs_of_pos hq, one_mul, ← hE, hs,
    rne_intCast]
  push_cast
  rw [← zpow_natCast (2 : ℚ) (52 - E).toNat, Int.toNat_of_nonneg (by omega),
    mul_assoc, ← zpow_add₀ (two_ne_zero)]
  rw [show (52 : Int) - E + (E - 52) = 0 by ring, zpow_zero, mul_one]

theorem round64_one : round64 (1 : ℚ) = 1 := by
  have := round64_intCast 1 (by norm_num) (by norm_num)
  push_cast at this
  exact this

theorem round64_mono_pos {a b : ℚ} (ha : 0 < a) (hab : a ≤ b) :
    round64 a ≤ round64 b := by
  have hb : 0 < b := lt_of_lt_of_le ha hab
  obtain ⟨hal, har⟩ := qexp_spec a (ne_of_gt ha)
  rw [abs_of_pos ha] at hal har
  obtain ⟨hbl, hbr⟩ := qexp_spec b (ne_of_gt hb)
  rw [abs_of_pos hb] at hbl hbr
  have hE : qexp a ≤ qexp b := by
    have := exp2_lt_imp (lt_of_le_of_lt hal (lt_of_le_of_lt hab hbr))
    omega
  unfold round64
  rw [if_neg (ne_of_gt ha), if_neg (ne_of_gt hb), if_neg (not_lt.mpr (le_of_lt ha)),
    if_neg (not_lt.mpr (le_of_lt hb)), abs_of_pos ha, abs_of_pos hb, one_mul, one_mul]
  rcases eq_or_lt_of_le hE with heq | hlt
  · rw [← heq]
    apply mul_le_mul_of_nonneg_right
    · exact_mod_cast rne_mono
        (mul_le_mul_of_nonneg_right hab (le_of_lt (zpow_pos (by norm_num) _)))
    · exact le_of_lt (zpow_pos (by norm_num) _)
  · have hsa_lt : a * 2 ^ ((52 : Int) - qexp a) < 2 ^ ((53 : Int)) := by
      calc a * 2 ^ ((52 : Int) - qexp a) <
            2 ^ (qexp a + 1) * 2 ^ ((52 : Int) - qexp a) :=
          mul_lt_mul_of_pos_right har (zpow_pos (by norm_num) _)
        _ = 2 ^ ((53 : Int)) := by
            rw [← zpow_add₀ (two_ne_zero)]
            congr 1
            ring
    have hra : (rne (a * 2 ^ ((52 : Int) - qexp a)) : ℚ) ≤ 2 ^ ((53 : Int)) := by
      have h1 := rne_le (a * 2 ^ ((52 : Int) - qexp a))
      have h2 : ((rne (a * 2 ^ ((52 : Int) - qexp a)) : Int) : ℚ) <
          ((2 ^ 53 : Int) : ℚ) + 1 := by
        rw [← two_zpow_53]
        linarith
      have h3 : rne (a * 2 ^ ((52 : Int) - qexp a)) < 2 ^ 53 + 1 := by
        exact_mod_cast h2
      have h4 : rne (a * 2 ^ ((52 : Int) - qexp a)) ≤ 2 ^ 53 := by omega
      rw [two_zpow_53]
      exact_mod_cast h4
    have hsb_ge : (2 : ℚ) ^ ((52 : Int)) ≤ b * 2 ^ ((52 : Int) - qexp b) := by
      calc (2 : ℚ) ^ ((52 : Int)) = 2 ^ qexp b * 2 ^ ((52 : Int) - qexp b) := by
            rw [← zpow_add₀ (two_ne_zero)]
            congr 1
            ring
        _ ≤ b * 2 ^ ((52 : Int) - qexp b) :=
            mul_le_mul_of_nonneg_right hbl (le_of_lt (zpow_pos (by norm_num) _))
    have hrb : (2 : ℚ) ^ ((52 : Int)) ≤ (rne (b * 2 ^ ((52 : Int) - qexp b)) : ℚ) := by
      have h1 := rne_ge (b * 2 ^ ((52 : Int) - qexp b))
      have h2 : ((2 ^ 52 : Int) : ℚ) - 1 < ((rne (b * 2 ^ ((52 : Int) - qexp b)) : Int) : ℚ) := by
        rw [← two_zpow_52]
        linarith
      have h3 : 2 ^ 52 - 1 < rne (b * 2 ^ ((52 : Int) - qexp b)) := by
        exact_mod_cast h2
      have h4 : (2 ^ 52 : Int) ≤ rne (b * 2 ^ ((52 : Int) - qexp b)) := by omega
      rw [two_zpow_52]
      exact_mod_cast h4
    have hstep1 : (rne (a * 2 ^ ((52 : Int) - qexp a)) : ℚ) * 2 ^ (qexp a - (52 : Int)) ≤
        2 ^ (qexp a + 1) := by
      calc (rne (a * 2 ^ ((52 : Int) - qexp a)) : ℚ) * 2 ^ (qexp a - (52 : Int)) ≤
            2 ^ ((53 : Int)) * 2 ^ (qexp a - (52 : Int)) :=
          mul_le_mul_of_nonneg_right hra (le_of_lt (zpow_pos (by norm_num) _))
        _ = 2 ^ (qexp a + 1) := by
            rw [← zpow_add₀ (two_ne_zero)]
            congr 1
            ring
    have hstep2 : (2 : ℚ) ^ (qexp a + 1) ≤ 2 ^ qexp b :=
      zpow_le_zpow_right₀ one_le_two (by omega)
    have hstep3 : (2 : ℚ) ^ qexp b ≤
        (rne (b * 2 ^ ((52 : Int) - qexp b)) : ℚ) * 2 ^ (qexp b - (52 : Int)) := by
      calc (2 : ℚ) ^ qexp b = 2 ^ ((52 : Int)) * 2 ^ (qexp b - (52 : Int)) := by
            rw [← zpow_add₀ (two_ne_zero)]
            congr 1
            ring
        _ ≤ (rne (b * 2 ^ ((52 : Int) - qexp b)) : ℚ) * 2 ^ (qexp b - (52 : Int)) :=
          mul_le_mul_of_nonneg_right hrb (le_of_lt (zpow_pos (by norm_num) _))
    linarith

theorem round64_mono {a b : ℚ} (h : a ≤ b) : round64 a ≤ round64 b := by
  rcases lt_trichotomy a 0 with ha | ha | ha
  · rcases lt_trichotomy b 0 with hb | hb | hb
    · have hcore := round64_mono_pos (neg_pos.mpr hb) (neg_le_neg h)
      rw [round64_neg, round64_neg] at hcore
      linarith
    · have hp := round64_pos (-a) (neg_pos.mpr ha)
      rw [round64_neg] at hp
      rw [hb, round64_zero]
      linarith
    · have hp := round64_pos (-a) (neg_pos.mpr ha)
      rw [round64_neg] at hp
      have := round64_pos b hb
      linarith
  · subst ha
    rw [round64_zero]
    rcases eq_or_lt_of_le h with hb | hb
    · rw [← hb, round64_zero]
    · exact le_of_lt (round64_pos b hb)
  · exact round64_mono_pos ha h

theorem roundFloat_fst_neg (a b : Int) :
    roundFloat (-a) b = (-(roundFloat a b).1, (roundFloat a b).2) := by
  unfold roundFloat
  by_cases h : a = 0
  · simp [h]
  · rw [if_neg (neg_ne_zero.mpr h), if_neg h]
    simp only [Int.natAbs_neg, Int.sign_neg, neg_mul]

theorem fval_roundFloat_neg (a b : Int) :
    fval (roundFloat (-a) b) = -fval (roundFloat a b) := by
  rw [roundFloat_fst_neg]
  unfold fval
  push_cast
  ring

theorem roundFloat_val_pos (a b : Int) (ha : 0 < a) (hb : 0 < b) :
    fval (roundFloat a b) = round64 ((a : ℚ) / b) := by
  have haq : (0 : ℚ) < (a : ℚ) := by exact_mod_cast ha
  have hbq : (0 : ℚ) < (b : ℚ) := by exact_mod_cast hb
  have hq : (0 : ℚ) < (a : ℚ) / b := div_pos haq hbq
  have hA : ((a.natAbs : ℕ) : ℚ) = (a : ℚ) := by
    rw [Int.cast_natAbs, abs_of_pos ha]
  have hB : ((b.natAbs : ℕ) : ℚ) = (b : ℚ) := by
    rw [Int.cast_natAbs, abs_of_pos hb]
  have hAp : 0 < a.natAbs := Int.natAbs_pos.mpr (ne_of_gt ha)
  have hBp : 0 < b.natAbs := Int.natAbs_pos.mpr (ne_of_gt hb)
  have hchar := ratExp2N_correct a.natAbs b.natAbs hAp hBp
  rw [hA, hB] at hchar
  have hchar2 := qexp_spec ((a : ℚ) / b) (ne_of_gt hq)
  rw [abs_of_pos hq] at hchar2
  have hEeq : ratExp2N a.natAbs b.natAbs = qexp ((a : ℚ) / b) :=
    exp2_unique hchar.1 hchar.2 hchar2.1 hchar2.2
  have hsgn : a.sign = 1 := Int.sign_eq_one_iff_pos.mpr ha
  unfold roundFloat
  rw [if_neg (by omega : ¬ a = 0)]
  dsimp only
  set E := ratExp2N a.natAbs b.natAbs with hEdef
  unfold round64 fval
  rw [if_neg (ne_of_gt hq), if_neg (not_lt.mpr (le_of_lt hq)), abs_of_pos hq, one_mul, ← hEeq]
  dsimp only
  rw [hsgn, one_mul]
  by_cases hE52 : E ≤ 52
  · rw [if_pos hE52]
    congr 1
    have harg : ((a.natAbs * 2 ^ (52 - E).toNat : ℕ) : ℚ) / ((b.natAbs : ℕ) : ℚ) =
        ((a : ℚ) / b) * 2 ^ ((52 : Int) - E) := by
      push_cast
      push_cast at hA hB
      rw [hA, hB, ← zpow_natCast (2 : ℚ) ((52 - E).toNat), Int.toNat_of_nonneg (by omega)]
      ring
    have hbr := rneDiv_eq (a.natAbs * 2 ^ (52 - E).toNat) b.natAbs hBp
    rw [harg] at hbr
    exact_mod_cast hbr
  · rw [if_neg hE52]
    congr 1
    have hBp2 : 0 < b.natAbs * 2 ^ (E - 52).toNat := by positivity
    have harg : ((a.natAbs : ℕ) : ℚ) / ((b.natAbs * 2 ^ (E - 52).toNat : ℕ) : ℚ) =
        ((a : ℚ) / b) * 2 ^ ((52 : Int) - E) := by
      push_cast
      push_cast at hA hB
      rw [hA, hB, ← zpow_natCast (2 : ℚ) ((E - 52).toNat), Int.toNat_of_nonneg (by omega)]
      rw [show (52 : Int) - E = -(E - 52) by ring, zpow_neg]
      have hzne : ((2 : ℚ) ^ (E - 52) : ℚ) ≠ 0 := zpow_ne_zero _ (two_ne_zero)
      field_simp
    have hbr := rneDiv_eq a.natAbs (b.natAbs * 2 ^ (E - 52).toNat) hBp2
    rw [harg] at hbr
    exact_mod_cast hbr

theorem roundFloat_val (a b : Int) (hb : 0 < b) :
    fval (roundFloat a b) = round64 ((a : ℚ) / b) := by
  rcases lt_trichotomy a 0 with ha | ha | ha
  · have h1 : fval (roundFloat a b) = -fval (roundFloat (-a) b) := by
      have := fval_roundFloat_neg (-a) b
      simp only [neg_neg] at this
      linarith [this]
    rw [h1, roundFloat_val_pos (-a) b (by omega) hb]
    have h2 : (((-a : Int)) : ℚ) / b = -((a : ℚ) / b) := by
      push_cast
      ring
    rw [h2, round64_neg]
    ring
  · rw [ha]
    show fval (roundFloat 0 b) = round64 ((0 : Int) / (b : ℚ))
    simp [roundFloat, fval, round64]
  · exact roundFloat_val_pos a b ha hb

theorem floatDiv_val (x : Int × Int) (d : Int) (hd : 0 < d) :
    fval (floatDiv x d) = round64 (fval x / (d : ℚ)) := by
  unfold floatDiv
  by_cases he : 0 ≤ x.2
  · rw [if_pos he, roundFloat_val _ _ hd]
    congr 2
    unfold fval
    push_cast
    rw [← zpow_natCast (2 : ℚ) x.2.toNat, Int.toNat_of_nonneg he]
  · rw [if_neg he]
    have hd2 : (0 : Int) < d * 2 ^ (-x.2).toNat := by positivity
    rw [roundFloat_val _ _ hd2]
    congr 1
    unfold fval
    push_cast
    rw [← zpow_natCast (2 : ℚ) (-x.2).toNat, Int.toNat_of_nonneg (by omega), zpow_neg]
    have hzne : ((2 : ℚ) ^ x.2 : ℚ) ≠ 0 := zpow_ne_zero _ (two_ne_zero)
    have hdq : ((d : ℚ)) ≠ 0 := by
      have : (0 : ℚ) < (d : ℚ) := by exact_mod_cast hd
      exact ne_of_gt this
    field_simp

theorem floatMul_val (x y : Int × Int) :
    fval (floatMul x y) = round64 (fval x * fval y) := by
  unfold floatMul
  by_cases he : 0 ≤ x.2 + y.2
  · rw [if_pos he, roundFloat_val _ _ (by norm_num : (0 : Int) < 1)]
    congr 1
    unfold fval
    push_cast
    rw [div_one, ← zpow_natCast (2 : ℚ) (x.2 + y.2).toNat, Int.toNat_of_nonneg he,
      zpow_add₀ (two_ne_zero)]
    ring
  · rw [if_neg he]
    have h2 : (0 : Int) < 2 ^ (-(x.2 + y.2)).toNat := by positivity
    rw [roundFloat_val _ _ h2]
    congr 1
    unfold fval
    push_cast
    rw [← zpow_natCast (2 : ℚ) (-(x.2 + y.2)).toNat, Int.toNat_of_nonneg (by omega), zpow_neg,
      div_eq_mul_inv, inv_inv, zpow_add₀ (two_ne_zero)]
    ring

theorem floatCeil_val (x : Int × Int) : floatCeil x = ⌈fval x⌉ := by
  unfold floatCeil
  by_cases he : 0 ≤ x.2
  · rw [if_pos he]
    have hv : fval x = ((x.1 * 2 ^ x.2.toNat : Int) : ℚ) := by
      unfold fval
      push_cast
      rw [← zpow_natCast (2 : ℚ) x.2.toNat, Int.toNat_of_nonneg he]
    rw [hv, Int.ceil_intCast]
  · rw [if_neg he]
    have h2 : (0 : Int) < 2 ^ (-x.2).toNat := by positivity
    rw [ceilDiv_eq_ceil _ _ h2]
    congr 1
    unfold fval
    push_cast
    rw [← zpow_natCast (2 : ℚ) (-x.2).toNat, Int.toNat_of_nonneg (by omega), zpow_neg,
      div_eq_mul_inv, inv_inv]

theorem floatRankIdx_eq (N p : Int) :
    floatRankIdx N p =
      ⌈round64 (round64 (round64 ((p : ℚ)) / 100) * round64 ((N : ℚ)))⌉ - 1 := by
  unfold floatRankIdx
  rw [floatCeil_val, floatMul_val, floatDiv_val _ _ (by norm_num : (0 : Int) < 100),
    roundFloat_val _ _ (by norm_num : (0 : Int) < 1),
    roundFloat_val _ _ (by norm_num : (0 : Int) < 1)]
  norm_num

theorem drop_append_drop {α : Type} (l l2 : List α) (n k : Nat) (h : n ≤ l.length) :
    (l.drop n ++ l2).drop k = (l ++ l2).drop (n + k) := by
  have h1 : (l ++ l2).drop n = l.drop n ++ l2 := by
    rw [List.drop_append_eq_append_drop, Nat.sub_eq_zero_of_le h, List.drop_zero]
  rw [← h1, List.drop_drop]

theorem lookupAssoc_insertAssoc (l : List (String × Metric)) (k : String) (v : Metric) :
    lookupAssoc (insertAssoc l k v) k = some v := by
  induction l with
  | nil => simp [insertAssoc, lookupAssoc]
  | cons hd tl ih =>
    obtain ⟨k0, v0⟩ := hd
    unfold insertAssoc
    by_cases hk : k0 = k
    · simp [hk, lookupAssoc]
    · simp [hk, lookupAssoc, ih]

/-- C1: the spec contract says getOrCreate inserts the new Metric into the
existing mapping, preserving every previously registered metric; the code
instead rebuilds the backing map on the not-found branch, so a registry
holding metric "a" (with a sample) loses it entirely when "b" is first
seen: the resulting store maps only "b". -/
theorem getOrCreateMetric_discards_existing :
    getOrCreateMetric
        { Metrics := some
            [("a", { Config := defaultMetricConfig "a" 0,
                     Samples := [{ LatencyVal := 5, RecordedAt := 3 }] })] }
        "b" 7 =
      some ({ Metrics := some
                [("b", { Config := defaultMetricConfig "b" 7, Samples := [] })] },
            { Config := defaultMetricConfig "b" 7, Samples := [] }) := by
  rfl

/-- C10: getOrCreate on the zero-value registry (nil backing map, as built
by the bootstrap) does not panic: the lookup on the nil map reports
not-found, a fresh map is allocated before the insertion, and the returned
metric is registered and usable. -/
theorem getOrCreateMetric_nil_map_safe (id : String) (now : Instant) :
    getOrCreateMetric { Metrics := none } id now =
      some ({ Metrics := some
                [(id, { Config := defaultMetricConfig id now, Samples := [] })] },
            { Config := defaultMetricConfig id now, Samples := [] }) ∧
    getMetric
        { Metrics := some
            [(id, { Config := defaultMetricConfig id now, Samples := [] })] } id =
      some { Config := defaultMetricConfig id now, Samples := [] } := by
  constructor
  · rfl
  · simp [getMetric, mapGet, lookupAssoc]

/-- C4: the snapshot counts exactly the stored samples recorded strictly
after `now - window`, and a sample recorded exactly at the cutoff instant
is excluded (a metric whose only sample sits on the cutoff counts zero). -/
theorem calculateLatency_window_exclusive (m : Metric) (now : Instant) :
    (CalculateLatency m now).Count =
      m.Samples.countP (fun s => decide (now - m.Config.Window < s.RecordedAt)) ∧
    ∀ (c : MetricConfig) (v : Duration),
      (CalculateLatency
          { Config := c, Samples := [{ LatencyVal := v, RecordedAt := now - c.Window }] }
          now).Count = 0 := by
  constructor
  · rw [List.countP_eq_length_filter]
    dsimp only [CalculateLatency]
    split <;> rfl
  · intro c v
    simp [CalculateLatency]

/-- C5: record rejects a non-positive latency, returning false and leaving
the sample sequence untouched; a strictly positive latency is accepted and
the new sample is appended at the tail (for any metric satisfying the
data-model invariant MaxSamples > 0). -/
theorem recordLatency_validates (m : Metric) (latency : Duration) (now : Instant)
    (hmax : 0 < m.Config.MaxSamples) :
    (latency ≤ 0 → RecordLatency m latency now = (m, false)) ∧
    (0 < latency → (RecordLatency m latency now).2 = true ∧
      ∃ pre, (RecordLatency m latency now).1.Samples =
        pre ++ [{ LatencyVal := latency, RecordedAt := now }]) := by
  constructor
  · intro h
    simp [RecordLatency, h]
  · intro h
    have hnle : ¬ latency ≤ 0 := not_le.mpr h
    have hpair : RecordLatency m latency now =
        ({ m with Samples :=
            if ((m.Samples ++
                  [({ LatencyVal := latency, RecordedAt := now } : LatencySample)]).length : Int) >
                m.Config.MaxSamples
            then (m.Samples ++
                  [({ LatencyVal := latency, RecordedAt := now } : LatencySample)]).drop 1
            else m.Samples ++ [{ LatencyVal := latency, RecordedAt := now }] }, true) := by
      unfold RecordLatency
      rw [if_neg hnle]
    rw [hpair]
    refine ⟨rfl, ?_⟩
    dsimp only
    by_cases hover :
        ((m.Samples ++
            [({ LatencyVal := latency, RecordedAt := now } : LatencySample)]).length : Int) >
          m.Config.MaxSamples
    · rw [if_pos hover]
      rcases hS : m.Samples with _ | ⟨a, t⟩
      · exfalso
        rw [hS] at hover
        simp at hover
        omega
      · refine ⟨t, ?_⟩
        simp
    · rw [if_neg hover]
      exact ⟨m.Samples, rfl⟩

/-- C6: when no stored sample is strictly inside the window (in particular
for a fresh metric with no recordings), the snapshot has count 0 and all
three percentiles absent; absence (`none`) is distinct from a zero value. -/
theorem calculateLatency_no_active (m : Metric) (now : Instant)
    (h : ∀ s ∈ m.Samples, s.RecordedAt ≤ now - m.Config.Window) :
    CalculateLatency m now =
      { MetricID := m.Config.ID, Window := m.Config.Window, Count := 0,
        P50 := none, P95 := none, P99 := none } := by
  have hfil :
      m.Samples.filter (fun record => decide (now - m.Config.Window < record.RecordedAt)) = [] := by
    rw [List.filter_eq_nil_iff]
    intro a ha
    simpa using not_lt.mpr (h a ha)
  simp [CalculateLatency, hfil]

/-- Witness for C6 at a fresh metric with no recordings. -/
theorem calculateLatency_no_active_witness :
    CalculateLatency { Config := defaultMetricConfig "fresh" 0, Samples := [] } 5 =
      { MetricID := "fresh", Window := 60000000000, Count := 0,
        P50 := none, P95 := none, P99 := none } :=
  calculateLatency_no_active
    { Config := defaultMetricConfig "fresh" 0, Samples := [] } 5 (by simp)

/-- Witness for C5: a zero latency is rejected without touching the store,
and a positive one is appended. -/
theorem recordLatency_validates_witness :
    (RecordLatency { Config := defaultMetricConfig "w" 0, Samples := [] } 0 9 =
      ({ Config := defaultMetricConfig "w" 0, Samples := [] }, false)) ∧
    ∃ pre, (RecordLatency { Config := defaultMetricConfig "w" 0, Samples := [] } 7 9).1.Samples =
      pre ++ [{ LatencyVal := 7, RecordedAt := 9 }] := by
  constructor
  · exact (recordLatency_validates
      { Config := defaultMetricConfig "w" 0, Samples := [] } 0 9 (by decide)).1 (by decide)
  · exact ((recordLatency_validates
      { Config := defaultMetricConfig "w" 0, Samples := [] } 7 9 (by decide)).2 (by decide)).2

/-- C9: on any non-empty input and any integer percentile, even one outside
(0,100], the clamping forces the index into range, so computePercentile is
total: it returns `some` element of the input list, never an out-of-range
access. -/
theorem computePercentile_total (l : List Duration) (p : Int) (h : l ≠ []) :
    ∃ v, computePercentile l p = some v ∧ v ∈ l := by
  have hN : 0 < (l.length : Int) := by
    exact_mod_cast List.length_pos.mpr h
  have hmem := clampIdx_mem (l.length : Int) (floatRankIdx (l.length : Int) p) hN
  have hlt : (clampIdx (l.length : Int) (floatRankIdx (l.length : Int) p)).toNat < l.length := by
    omega
  rw [computePercentile_unfold, if_neg (by omega), List.get?_eq_get hlt]
  exact ⟨_, rfl, List.get_mem _ _ _⟩

/-- Witness for C9 at a percentile far below the valid range. -/
theorem computePercentile_total_witness :
    ∃ v, computePercentile [10, 20, 30] (-7) = some v ∧ v ∈ [10, 20, 30] :=
  computePercentile_total [10, 20, 30] (-7) (by decide)

/-- C2 counterexample: on the ascending-sorted 100-element input 0..99 and
the in-range percentile p = 7, the program returns the element at index 7
(the float64 product 0.07 * 100 evaluates to 7.000000000000001, whose
ceiling is 8), while the exact nearest-rank formula ceil(7/100 * 100) - 1
of the claim selects index 6; so computePercentile does not return the
element at the exact formula index. -/
theorem computePercentile_exact_formula_fails :
    List.Sorted (· ≤ ·) ((List.range 100).map fun i => (i : Int)) ∧
    computePercentile ((List.range 100).map fun i => (i : Int)) 7 = some 7 ∧
    nearestRankIdx 100 7 = 6 ∧
    ((List.range 100).map fun i => (i : Int)).get? (nearestRankIdx 100 7).toNat = some 6 := by
  refine ⟨?_, ?_, ?_, ?_⟩
  · decide
  · decide
  · decide
  · decide

/-- C2 (amended): for a non-empty input of length N < 2^53 and an integer
percentile p in (0,100], the binary64 evaluation of the nearest-rank index,
int(math.Ceil((float64(p)/100.0) * float64(N))) - 1, already lies in
[0, N-1] (the clamps are identities) and computePercentile returns the
element at exactly that index.  This float64 index can differ from the
exact ceil(p/100 * N) - 1 (see the counterexample at p = 7, N = 100),
though not at the percentiles 50, 95, 99 that the program requests (the
witness checks the spec scenario). -/
theorem computePercentile_float_nearest_rank (l : List Duration) (p : Int)
    (hp : 0 < p) (hp100 : p ≤ 100) (h : l ≠ []) (hN53 : (l.length : Int) < 2 ^ 53) :
    ∃ hlt : (floatRankIdx (l.length : Int) p).toNat < l.length,
      computePercentile l p =
        some (l.get ⟨(floatRankIdx (l.length : Int) p).toNat, hlt⟩) := by
  have hN : 0 < (l.length : Int) := by
    exact_mod_cast List.length_pos.mpr h
  have hrp : round64 ((p : ℚ)) = (p : ℚ) :=
    round64_intCast p hp (lt_of_le_of_lt hp100 (by norm_num))
  have hrN : round64 (((l.length : Int) : ℚ)) = ((l.length : Int) : ℚ) :=
    round64_intCast _ hN hN53
  have hNq : (0 : ℚ) < ((l.length : Int) : ℚ) := by exact_mod_cast hN
  have hq_pos : 0 < round64 ((p : ℚ) / 100) := by
    apply round64_pos
    have : (0 : ℚ) < (p : ℚ) := by exact_mod_cast hp
    positivity
  have hq_le : round64 ((p : ℚ) / 100) ≤ 1 := by
    have h1 : ((p : ℚ) / 100) ≤ 1 := by
      rw [div_le_one (by norm_num)]
      exact_mod_cast hp100
    calc round64 ((p : ℚ) / 100) ≤ round64 1 := round64_mono h1
      _ = 1 := round64_one
  have hprod_pos : 0 < round64 (round64 ((p : ℚ) / 100) * ((l.length : Int) : ℚ)) :=
    round64_pos _ (mul_pos hq_pos hNq)
  have hprod_le : round64 (round64 ((p : ℚ) / 100) * ((l.length : Int) : ℚ)) ≤
      ((l.length : Int) : ℚ) := by
    have h1 : round64 ((p : ℚ) / 100) * ((l.length : Int) : ℚ) ≤
        1 * ((l.length : Int) : ℚ) :=
      mul_le_mul_of_nonneg_right hq_le (le_of_lt hNq)
    rw [one_mul] at h1
    calc round64 (round64 ((p : ℚ) / 100) * ((l.length : Int) : ℚ)) ≤
        round64 (((l.length : Int) : ℚ)) := round64_mono h1
      _ = ((l.length : Int) : ℚ) := hrN
  have hidx : floatRankIdx (l.length : Int) p =
      ⌈round64 (round64 ((p : ℚ) / 100) * ((l.length : Int) : ℚ))⌉ - 1 := by
    rw [floatRankIdx_eq, hrp, hrN]
  have hceil1 : 1 ≤ ⌈round64 (round64 ((p : ℚ) / 100) * ((l.length : Int) : ℚ))⌉ :=
    Int.ceil_pos.mpr hprod_pos
  have hceilN : ⌈round64 (round64 ((p : ℚ) / 100) * ((l.length : Int) : ℚ))⌉ ≤
      (l.length : Int) := Int.ceil_le.mpr hprod_le
  have hb0 : 0 ≤ floatRankIdx (l.length : Int) p := by omega
  have hb1 : floatRankIdx (l.length : Int) p < (l.length : Int) := by omega
  have hclamp : clampIdx (l.length : Int) (floatRankIdx (l.length : Int) p) =
      floatRankIdx (l.length : Int) p :=
    clampIdx_eq_of_bounds _ _ hb0 hb1
  have hlt : (floatRankIdx (l.length : Int) p).toNat < l.length := by
    omega
  refine ⟨hlt, ?_⟩
  rw [computePercentile_unfold, if_neg (by omega), hclamp, List.get?_eq_get hlt]

/-- Witness for the amended C2: the spec scenario [10ms, 20ms, 30ms] gives
P50 = 20ms, P95 = P99 = 30ms, and a singleton input returns its only value
at a percentile in range: at these inputs the float64 index agrees with
the exact nearest-rank index. -/
theorem computePercentile_float_nearest_rank_witness :
    computePercentile [10000000, 20000000, 30000000] 50 = some 20000000 ∧
    computePercentile [10000000, 20000000, 30000000] 95 = some 30000000 ∧
    computePercentile [10000000, 20000000, 30000000] 99 = some 30000000 ∧
    computePercentile [42] 77 = some 42 := by
  obtain ⟨hlt1, he1⟩ :=
    computePercentile_float_nearest_rank [10000000, 20000000, 30000000] 50
      (by decide) (by decide) (by decide) (by decide)
  obtain ⟨hlt2, he2⟩ :=
    computePercentile_float_nearest_rank [10000000, 20000000, 30000000] 95
      (by decide) (by decide) (by decide) (by decide)
  obtain ⟨hlt3, he3⟩ :=
    computePercentile_float_nearest_rank [10000000, 20000000, 30000000] 99
      (by decide) (by decide) (by decide) (by decide)
  obtain ⟨hlt4, he4⟩ :=
    computePercentile_float_nearest_rank [42] 77
      (by decide) (by decide) (by decide) (by decide)
  refine ⟨?_, ?_, ?_, ?_⟩
  · rw [he1]; rfl
  · rw [he2]; rfl
  · rw [he3]; rfl
  · rw [he4]; rfl

/-- C7: for a fixed non-empty ascending-sorted input, computePercentile is
monotone in the percentile argument: p1 ≤ p2 implies the value returned
for p1 is at most the value returned for p2. -/
theorem computePercentile_monotone (l : List Duration)
    (hs : l.Sorted (· ≤ ·)) (hne : l ≠ []) (p1 p2 : Int) (hp : p1 ≤ p2)
    (v1 v2 : Duration)
    (h1 : computePercentile l p1 = some v1)
    (h2 : computePercentile l p2 = some v2) : v1 ≤ v2 := by
  have hN : 0 < (l.length : Int) := by
    exact_mod_cast List.length_pos.mpr hne
  have hm1 := clampIdx_mem (l.length : Int) (floatRankIdx (l.length : Int) p1) hN
  have hm2 := clampIdx_mem (l.length : Int) (floatRankIdx (l.length : Int) p2) hN
  have hlt1 : (clampIdx (l.length : Int) (floatRankIdx (l.length : Int) p1)).toNat < l.length := by
    omega
  have hlt2 : (clampIdx (l.length : Int) (floatRankIdx (l.length : Int) p2)).toNat < l.length := by
    omega
  rw [computePercentile_unfold, if_neg (by omega), List.get?_eq_get hlt1] at h1
  rw [computePercentile_unfold, if_neg (by omega), List.get?_eq_get hlt2] at h2
  have hiv1 := Option.some.inj h1
  have hiv2 := Option.some.inj h2
  have hrank : floatRankIdx (l.length : Int) p1 ≤ floatRankIdx (l.length : Int) p2 := by
    rw [floatRankIdx_eq, floatRankIdx_eq]
    have hNn : (0 : ℚ) ≤ round64 (((l.length : Int) : ℚ)) :=
      le_of_lt (round64_pos _ (by exact_mod_cast hN))
    have m1 : round64 ((p1 : ℚ)) ≤ round64 ((p2 : ℚ)) :=
      round64_mono (by exact_mod_cast hp)
    have m2 : round64 ((p1 : ℚ)) / 100 ≤ round64 ((p2 : ℚ)) / 100 := by
      linarith
    have m3 := round64_mono m2
    have m4 : round64 (round64 ((p1 : ℚ)) / 100) * round64 (((l.length : Int) : ℚ)) ≤
        round64 (round64 ((p2 : ℚ)) / 100) * round64 (((l.length : Int) : ℚ)) :=
      mul_le_mul_of_nonneg_right m3 hNn
    have m5 := round64_mono m4
    have m6 := Int.ceil_mono m5
    omega
  have hidx := clampIdx_mono (l.length : Int) _ _ hrank
  have hle : (clampIdx (l.length : Int) (floatRankIdx (l.length : Int) p1)).toNat ≤
      (clampIdx (l.length : Int) (floatRankIdx (l.length : Int) p2)).toNat := by
    omega
  rw [← hiv1, ← hiv2]
  rcases Nat.lt_or_ge (clampIdx (l.length : Int) (floatRankIdx (l.length : Int) p1)).toNat
      (clampIdx (l.length : Int) (floatRankIdx (l.length : Int) p2)).toNat with hlt | hge
  · exact List.pairwise_iff_get.mp hs ⟨_, hlt1⟩ ⟨_, hlt2⟩ hlt
  · have heq : (clampIdx (l.length : Int) (floatRankIdx (l.length : Int) p1)).toNat =
        (clampIdx (l.length : Int) (floatRankIdx (l.length : Int) p2)).toNat := by
      omega
    exact le_of_eq (congrArg l.get (Fin.ext heq))

/-- Witness for C7 on the spec scenario input at p1 = 50 and p2 = 95. -/
theorem computePercentile_monotone_witness : (20000000 : Int) ≤ 30000000 :=
  computePercentile_monotone [10000000, 20000000, 30000000]
    (by decide) (by decide) 50 95 (by decide) 20000000 30000000
    (by decide) (by decide)

theorem recordMany_samples_eq (entries : List (Duration × Instant)) :
    ∀ m : Metric, (∀ e ∈ entries, 0 < e.1) →
      ((m.Samples.length : Int) ≤ m.Config.MaxSamples) →
      (recordMany m entries).Samples =
        (m.Samples ++ entries.map mkSample).drop
          (m.Samples.length + entries.length - m.Config.MaxSamples.toNat) := by
  induction entries with
  | nil =>
    intro m _ hlen
    have hz : m.Samples.length + ([] : List (Duration × Instant)).length -
        m.Config.MaxSamples.toNat = 0 := by
      simp only [List.length_nil]
      omega
    rw [hz]
    simp [recordMany]
  | cons e rest ih =>
    intro m hpos hlen
    have he : 0 < e.1 := hpos e (by simp)
    have hrest : ∀ x ∈ rest, 0 < x.1 := fun x hx => hpos x (by simp [hx])
    have hnle : ¬ e.1 ≤ 0 := not_le.mpr he
    have hfold : recordMany m (e :: rest) = recordMany (RecordLatency m e.1 e.2).1 rest := rfl
    have hcfg : ((RecordLatency m e.1 e.2).1).Config = m.Config := recordLatency_config m e.1 e.2
    have hsam : ((RecordLatency m e.1 e.2).1).Samples =
        (if ((m.Samples ++ [mkSample e]).length : Int) > m.Config.MaxSamples
         then (m.Samples ++ [mkSample e]).drop 1
         else m.Samples ++ [mkSample e]) := by
      unfold RecordLatency
      rw [if_neg hnle]
      rfl
    by_cases hover : ((m.Samples ++ [mkSample e]).length : Int) > m.Config.MaxSamples
    · have hover2 : m.Config.MaxSamples < (m.Samples.length : Int) + 1 := by
        rw [List.length_append, List.length_singleton] at hover
        push_cast at hover
        omega
      have hmaxeq : m.Config.MaxSamples = (m.Samples.length : Int) := by
        omega
      rw [if_pos hover] at hsam
      have hlen2 : ((m.Samples ++ [mkSample e]).drop 1).length = m.Samples.length := by
        rw [List.length_drop, List.length_append, List.length_singleton]
        omega
      have hlen1 : (((RecordLatency m e.1 e.2).1).Samples.length : Int) ≤
          ((RecordLatency m e.1 e.2).1).Config.MaxSamples := by
        rw [hcfg, hsam, hlen2]
        omega
      have hih := ih (RecordLatency m e.1 e.2).1 hrest hlen1
      rw [hfold, hih, hcfg, hsam]
      rw [drop_append_drop _ _ 1 _ (by simp)]
      rw [hlen2]
      have hmaxnat : m.Config.MaxSamples.toNat = m.Samples.length := by
        omega
      congr 1
      · simp only [List.length_cons]
        omega
      · rw [List.append_assoc]
        simp
    · rw [if_neg hover] at hsam
      rw [List.length_append, List.length_singleton] at hover
      push_cast at hover
      have hlen1 : (((RecordLatency m e.1 e.2).1).Samples.length : Int) ≤
          ((RecordLatency m e.1 e.2).1).Config.MaxSamples := by
        rw [hcfg, hsam, List.length_append, List.length_singleton]
        push_cast
        omega
      have hih := ih (RecordLatency m e.1 e.2).1 hrest hlen1
      have hamount : (m.Samples ++ [mkSample e]).length + rest.length -
          m.Config.MaxSamples.toNat =
          m.Samples.length + (e :: rest).length - m.Config.MaxSamples.toNat := by
        simp only [List.length_append, List.length_singleton, List.length_cons,
          List.length_nil]
        omega
      rw [hfold, hih, hcfg, hsam, hamount, List.append_assoc]
      simp

/-- C3: starting from any metric whose stored sequence is within its
MaxSamples bound, any sequence of positive-latency record calls leaves
exactly the most recently recorded samples, in recording order (the head
is dropped first, FIFO), and the stored length never exceeds MaxSamples. -/
theorem recordMany_bounded_fifo (m : Metric) (entries : List (Duration × Instant))
    (hpos : ∀ e ∈ entries, 0 < e.1)
    (hlen : (m.Samples.length : Int) ≤ m.Config.MaxSamples) :
    (recordMany m entries).Samples =
      (m.Samples ++ entries.map mkSample).drop
        (m.Samples.length + entries.length - m.Config.MaxSamples.toNat) ∧
    (((recordMany m entries).Samples.length : Int)) ≤ m.Config.MaxSamples := by
  have h := recordMany_samples_eq entries m hpos hlen
  refine ⟨h, ?_⟩
  rw [h, List.length_drop, List.length_append, List.length_map]
  omega

/-- Witness for C3: max 2 samples, three records; the first sample is
evicted and the last two remain in order. -/
theorem recordMany_bounded_fifo_witness :
    (recordMany
        { Config := { ID := "w", Window := 60, Percentiles := [], MaxSamples := 2, CreatedAt := 0 },
          Samples := [] }
        [(1, 1), (2, 2), (3, 3)]).Samples =
      [{ LatencyVal := 2, RecordedAt := 2 }, { LatencyVal := 3, RecordedAt := 3 }] ∧
    ((recordMany
        { Config := { ID := "w", Window := 60, Percentiles := [], MaxSamples := 2, CreatedAt := 0 },
          Samples := [] }
        [(1, 1), (2, 2), (3, 3)]).Samples.length : Int) ≤ 2 := by
  have h := recordMany_bounded_fifo
    { Config := { ID := "w", Window := 60, Percentiles := [], MaxSamples := 2, CreatedAt := 0 },
      Samples := [] }
    [(1, 1), (2, 2), (3, 3)] (by decide) (by decide)
  exact ⟨h.1.trans (by rfl), h.2⟩

/-- C8: create rejects a config with window ≤ 0 or MaxSamples ≤ 0, signaling
an error while returning the registry untouched; a valid config always
creates a fresh empty metric stored under the identifier of the config,
overwriting any existing binding (for any registry whose backing map is
initialized). -/
theorem createMetric_validates (ms : MetricStore) (config : MetricConfig) :
    (config.Window ≤ 0 ∨ config.MaxSamples ≤ 0 →
      ∃ e, CreateMetric ms config = some (ms, Except.error e)) ∧
    (0 < config.Window → 0 < config.MaxSamples → ∀ l, ms.Metrics = some l →
      CreateMetric ms config =
        some ({ Metrics := some (insertAssoc l config.ID { Config := config, Samples := [] }) },
              Except.ok { Config := config, Samples := [] }) ∧
      getMetric
          { Metrics := some (insertAssoc l config.ID { Config := config, Samples := [] }) }
          config.ID =
        some { Config := config, Samples := [] }) := by
  constructor
  · intro h
    unfold CreateMetric
    by_cases h1 : config.Window ≤ 0
    · exact ⟨CreateError.invalidWindow, by rw [if_pos h1]⟩
    · have h2 : config.MaxSamples ≤ 0 := by
        rcases h with h | h
        · exact absurd h h1
        · exact h
      exact ⟨CreateError.invalidMaxSamples, by rw [if_neg h1, if_pos h2]⟩
  · intro h1 h2 l hl
    have hn1 : ¬ config.Window ≤ 0 := not_le.mpr h1
    have hn2 : ¬ config.MaxSamples ≤ 0 := not_le.mpr h2
    constructor
    · unfold CreateMetric
      rw [if_neg hn1, if_neg hn2]
      dsimp only
      unfold mapSet
      rw [hl]
    · unfold getMetric mapGet
      exact lookupAssoc_insertAssoc l config.ID { Config := config, Samples := [] }

/-- Witness for C8: a zero window is rejected on an initialized empty store,
and a valid config is inserted and found again. -/
theorem createMetric_validates_witness :
    (∃ e, CreateMetric createNewMetricStore
        { ID := "m", Window := 0, Percentiles := [], MaxSamples := 5, CreatedAt := 0 } =
      some (createNewMetricStore, Except.error e)) ∧
    CreateMetric createNewMetricStore
        { ID := "m", Window := 60000000000, Percentiles := [], MaxSamples := 5, CreatedAt := 0 } =
      some ({ Metrics := some
                [("m", { Config := { ID := "m", Window := 60000000000, Percentiles := [],
                                     MaxSamples := 5, CreatedAt := 0 },
                         Samples := [] })] },
            Except.ok { Config := { ID := "m", Window := 60000000000, Percentiles := [],
                                    MaxSamples := 5, CreatedAt := 0 },
                        Samples := [] }) := by
  constructor
  · exact (createMetric_validates createNewMetricStore
      { ID := "m", Window := 0, Percentiles := [], MaxSamples := 5, CreatedAt := 0 }).1
      (Or.inl (by decide))
  · have h := (createMetric_validates createNewMetricStore
      { ID := "m", Window := 60000000000, Percentiles := [], MaxSamples := 5, CreatedAt := 0 }).2
      (by decide) (by decide) [] rfl
    exact h.1.trans (by rfl)

end LatencyTracker
